import Mathlib

/-!
# Verification of the postcard nibble codec core

Shallow embedding of the nibble-granularity serialization/deserialization
core of the `postcard` fork under verification:

* `src/ser/nibble_flavors.rs` — the serialization `NibbleFlavor` trait with
  its `NibbleSlice` (borrowed mutable slice) and `NibbleSize` (counting)
  backends;
* `src/de/nibble_flavors.rs` — the deserialization `NibbleFlavor` trait with
  its `NibbleSlice` (borrowed slice) backend;
* `src/vlu32n.rs` — the `Vlu32N` variable-length u32 codec.

Machine integers are modelled as `Nat` with explicit masking/`% 2^w` where
the Rust types (`u8`, `u32`) make overflow or truncation relevant.  Raw
pointers are modelled as an index (`cursor`) into a byte list `buf` that
stands for the memory region between `start` and `end`; `end` corresponds
to `buf.length`.  A raw-pointer dereference the Rust code performs without
a bounds check is undefined behavior when it falls outside the region; the
embedding makes that outcome explicit (`Outcome.ub`, or `none` for the
`Option`-shaped operations) instead of inventing a value.
-/

/-- The error enum variants referenced by the embedded code
(`Error::SerializeBufferFull`, `Error::DeserializeUnexpectedEnd`,
`Error::DeserializeBadVlu32N`). -/
inductive Error where
  | SerializeBufferFull
  | DeserializeUnexpectedEnd
  | DeserializeBadVlu32N
deriving Repr, DecidableEq

/-- Outcome of one fallible operation on a sink: success with the updated
sink state, a returned `Err`, or an out-of-bounds memory access that the
Rust source performs without a check (undefined behavior). -/
inductive Outcome (α : Type) where
  | ok : α → Outcome α
  | err : Error → Outcome α
  | ub : Outcome α
deriving Repr, DecidableEq

/-- State of `ser::nibble_flavors::NibbleSlice`: `buf` is the byte region
between `start` and `end` (so `end = buf.length`), `cursor` the write index,
and `is_at_byte_boundary` the mid-byte flag. -/
structure SerSlice where
  buf : List Nat
  cursor : Nat
  is_at_byte_boundary : Bool
deriving Repr, DecidableEq

namespace SerSlice

/-- `NibbleSlice::new`: cursor at the start of the buffer, at a boundary. -/
def new (b : List Nat) : SerSlice :=
  { buf := b, cursor := 0, is_at_byte_boundary := true }

/-- `NibbleSlice::try_push_nib`.  Mirrors the source exactly: after the
entry `cursor == end` check it reads the byte under the cursor; at a
boundary it writes `(b & 0x0f) | (nib << 4)` back in place; otherwise it
builds `(b & 0xf0) | (nib & 0x0f)`, advances the cursor **first** and then
writes at the advanced cursor (an out-of-bounds write when the old cursor
was the last byte). -/
def try_push_nib (s : SerSlice) (nib : Nat) : Outcome SerSlice :=
  if s.cursor = s.buf.length then .err .SerializeBufferFull
  else
    match s.buf.get? s.cursor with
    | none => .ub
    | some b =>
      if s.is_at_byte_boundary then
        .ok { s with
              buf := s.buf.set s.cursor ((b &&& 0x0f) ||| (((nib % 256) <<< 4) % 256)),
              is_at_byte_boundary := false }
      else
        if s.cursor + 1 < s.buf.length then
          .ok { buf := s.buf.set (s.cursor + 1) ((b &&& 0xf0) ||| (nib % 256 &&& 0x0f)),
                cursor := s.cursor + 1,
                is_at_byte_boundary := true }
        else .ub

/-- `NibbleSlice::try_push_u8`.  At a boundary the byte is written in place
and the cursor advances; otherwise the high nibble is OR-ed into the
current byte, the cursor advances (failing with `SerializeBufferFull` when
it reaches `end`), and `byte << 4` is written at the new cursor. -/
def try_push_u8 (s : SerSlice) (byte : Nat) : Outcome SerSlice :=
  if s.cursor = s.buf.length then .err .SerializeBufferFull
  else
    match s.buf.get? s.cursor with
    | none => .ub
    | some b =>
      if s.is_at_byte_boundary then
        .ok { s with buf := s.buf.set s.cursor (byte % 256), cursor := s.cursor + 1 }
      else
        if s.cursor + 1 = s.buf.length then .err .SerializeBufferFull
        else
          .ok { buf := (s.buf.set s.cursor (b ||| ((byte % 256) >>> 4))).set
                         (s.cursor + 1) (((byte % 256) <<< 4) % 256),
                cursor := s.cursor + 1,
                is_at_byte_boundary := s.is_at_byte_boundary }

/-- `NibbleSlice::align` (ser side): push a zero padding nibble when not at
a byte boundary. -/
def align (s : SerSlice) : Outcome SerSlice :=
  if s.is_at_byte_boundary then .ok s else s.try_push_nib 0

/-- `NibbleSlice::nibbles_left` (ser side). -/
def nibbles_left (s : SerSlice) : Nat :=
  let bytes_remain := s.buf.length - s.cursor
  if s.is_at_byte_boundary then bytes_remain * 2 else bytes_remain * 2 - 1

/-- Overwrite `buf` starting at index `i` with the bytes `bs`
(the `copy_nonoverlapping` in `try_extend`). -/
def writeBytes (buf : List Nat) (i : Nat) : List Nat → List Nat
  | [] => buf
  | b :: rest => writeBytes (buf.set i (b % 256)) (i + 1) rest

/-- `NibbleSlice::try_extend`: realign, check capacity in nibbles, then
bulk-copy and advance the cursor by the byte count. -/
def try_extend (s : SerSlice) (bytes : List Nat) : Outcome SerSlice :=
  match s.align with
  | .ok s1 =>
    if s1.nibbles_left < bytes.length * 2 then .err .SerializeBufferFull
    else
      .ok { s1 with
            buf := writeBytes s1.buf s1.cursor bytes,
            cursor := s1.cursor + bytes.length }
  | r => r

/-- `NibbleSlice::finalize` (ser side): the sub-slice of the buffer from
`start` of length `cursor - start`. -/
def finalize (s : SerSlice) : List Nat :=
  s.buf.take s.cursor

end SerSlice

/-- State of `de::nibble_flavors::NibbleSlice`: `buf` is the borrowed input
region (`end = buf.length`), `cursor` the read index, `is_at_byte_boundary`
the mid-byte flag. -/
structure DeSlice where
  buf : List Nat
  cursor : Nat
  is_at_byte_boundary : Bool
deriving Repr, DecidableEq

namespace DeSlice

/-- `NibbleSlice::new` (de side). -/
def new (b : List Nat) : DeSlice :=
  { buf := b, cursor := 0, is_at_byte_boundary := true }

/-- `NibbleSlice::try_take_nib`.  The source dereferences the cursor with
no bounds check whatsoever; a dereference at or past `end` is an
out-of-bounds read, modelled as `none`.  At a boundary the high nibble of
the current byte is returned and the flag flips; otherwise the low nibble
is returned and the cursor advances. -/
def try_take_nib (s : DeSlice) : Option (Nat × DeSlice) :=
  match s.buf.get? s.cursor with
  | none => none
  | some b =>
    if s.is_at_byte_boundary then
      some (((b &&& 0xf0) >>> 4), { s with is_at_byte_boundary := false })
    else
      some ((b &&& 0x0f),
            { s with cursor := s.cursor + 1, is_at_byte_boundary := true })

/-- `NibbleSlice::try_take_u8`.  Checks `cursor == end` at entry only.  At
a boundary it reads one byte and advances.  Misaligned it reads the current
byte, advances, and then dereferences the advanced cursor with no check —
an out-of-bounds read (`none`) when the current byte was the last one —
returning `(msn << 4) | (lsn >> 4)` with u8 truncation of the shift. -/
def try_take_u8 (s : DeSlice) : Option (Except Error Nat × DeSlice) :=
  if s.cursor = s.buf.length then some (.error .DeserializeUnexpectedEnd, s)
  else
    match s.buf.get? s.cursor with
    | none => none
    | some b =>
      if s.is_at_byte_boundary then
        some (.ok b, { s with cursor := s.cursor + 1 })
      else
        match s.buf.get? (s.cursor + 1) with
        | none => none
        | some b2 =>
          some (.ok (((b <<< 4) % 256) ||| (b2 >>> 4)),
                { s with cursor := s.cursor + 1 })

/-- `NibbleSlice::align` (de side): consume one padding nibble when not at
a byte boundary. -/
def align (s : DeSlice) : Option DeSlice :=
  if s.is_at_byte_boundary then some s
  else
    match s.try_take_nib with
    | none => none
    | some (_, s1) => some s1

/-- `NibbleSlice::nibbles_left` (de side). -/
def nibbles_left (s : DeSlice) : Nat :=
  let bytes_remain := s.buf.length - s.cursor
  if s.is_at_byte_boundary then bytes_remain * 2 else bytes_remain * 2 - 1

/-- `NibbleSlice::try_take_n`: realign, check `nibbles_left / 2 < bytes`,
then return a zero-copy view of `bytes` bytes and advance the cursor.  The
state paired with an `Except.error` result is the state the failing call
leaves behind (the Rust method mutates `self` in place). -/
def try_take_n (s : DeSlice) (bytes : Nat) : Option (Except Error (List Nat) × DeSlice) :=
  match s.align with
  | none => none
  | some s1 =>
    if s1.nibbles_left / 2 < bytes then
      some (.error .DeserializeUnexpectedEnd, s1)
    else
      some (.ok ((s1.buf.drop s1.cursor).take bytes),
            { s1 with cursor := s1.cursor + bytes })

/-- `NibbleSlice::finalize` (de side): the unread remainder, the bytes from
the cursor to `end`. -/
def finalize (s : DeSlice) : List Nat :=
  s.buf.drop s.cursor

end DeSlice

namespace Vlu32N

/-- The loop of `Vlu32N::ser`, iterations `i = 0 ..= 9` counted down by
`fuel` (so `fuel = 1` is iteration `i = 9`).  `val` is the `u32` shift
register (`% 2^32` on every `<<`), `msbFound` the flag.  The result is the
sequence of nibbles the loop passes to `try_push_nib`, most significant
first — `ser` is generic in the flavor and its sequence of pushed nibbles
depends only on the value. -/
def serLoop : Nat → Nat → Bool → List Nat
  | 0, _, _ => []
  | fuel + 1, val, msbFound =>
    if (val &&& (7 <<< 29) != 0) || msbFound then
      (if fuel == 0 then val >>> 29 else (val >>> 29) ||| 0b1000) ::
        serLoop fuel ((val <<< 3) % 4294967296) true
    else if fuel == 0 then
      0 :: serLoop fuel ((val <<< 3) % 4294967296) msbFound
    else
      serLoop fuel ((val <<< 3) % 4294967296) msbFound

/-- `Vlu32N::ser` as the sequence of nibbles pushed into the flavor: first
bits 31:30 (with the continuation bit, only when nonzero), then the ten
3-bit groups of the loop. -/
def serNibs (v : Nat) : List Nat :=
  let nib := v >>> 30
  if nib != 0 then
    (nib ||| 0b1000) :: serLoop 10 ((v <<< 2) % 4294967296) true
  else
    serLoop 10 ((v <<< 2) % 4294967296) false

/-- The loop of `Vlu32N::de` over a pure nibble stream, iterations
`i = 0 ..= 10` counted down by `fuel` (`fuel = 1` is iteration `i = 10`).
Taking from an exhausted stream is the flavor's take failing.  On the last
iteration a set continuation bit yields `DeserializeBadVlu32N`; otherwise
the low 3 bits are OR-ed in, a clear continuation bit ends the loop, and a
set one shifts the `u32` accumulator left by 3 (wrapping). -/
def deLoop : Nat → Nat → List Nat → Except Error Nat
  | 0, num, _ => .ok num
  | fuel + 1, num, nibs =>
    match nibs with
    | [] => .error .DeserializeUnexpectedEnd
    | nib :: rest =>
      if fuel == 0 && (nib &&& 0b1000 != 0) then .error .DeserializeBadVlu32N
      else
        if nib &&& 0b1000 == 0 then .ok (num ||| (nib &&& 0b111))
        else deLoop fuel (((num ||| (nib &&& 0b111)) <<< 3) % 4294967296) rest

/-- `Vlu32N::de` over a pure nibble stream. -/
def deNibs (nibs : List Nat) : Except Error Nat :=
  deLoop 11 0 nibs

end Vlu32N

/-- Run a sequence of `try_push_nib` calls against a `SerSlice`, stopping
at the first failure — this is exactly how `Vlu32N::ser` drives a flavor. -/
def SerSlice.pushNibs (s : SerSlice) : List Nat → Outcome SerSlice
  | [] => .ok s
  | n :: rest =>
    match s.try_push_nib n with
    | .ok s1 => s1.pushNibs rest
    | .err e => .err e
    | .ub => .ub

/-- `Vlu32N::ser` against the slice flavor: push the nibble sequence of
`serNibs` through `try_push_nib`. -/
def Vlu32N.serSlice (v : Nat) (s : SerSlice) : Outcome SerSlice :=
  s.pushNibs (Vlu32N.serNibs v)

/-- The loop of `Vlu32N::de` against the slice flavor, taking nibbles with
`DeSlice.try_take_nib`. -/
def Vlu32N.deSliceLoop : Nat → Nat → DeSlice → Option (Except Error Nat × DeSlice)
  | 0, num, s => some (.ok num, s)
  | fuel + 1, num, s =>
    match s.try_take_nib with
    | none => none
    | some (nib, s1) =>
      if fuel == 0 && (nib &&& 0b1000 != 0) then
        some (.error .DeserializeBadVlu32N, s1)
      else
        if nib &&& 0b1000 == 0 then some (.ok (num ||| (nib &&& 0b111)), s1)
        else Vlu32N.deSliceLoop fuel
               (((num ||| (nib &&& 0b111)) <<< 3) % 4294967296) s1

/-- `Vlu32N::de` against the slice flavor. -/
def Vlu32N.deSlice (s : DeSlice) : Option (Except Error Nat × DeSlice) :=
  Vlu32N.deSliceLoop 11 0 s

/-- The state of the `NibbleSize` flavor: a running nibble count.
`try_push_nib` adds 1, `try_push_u8` adds 2, `try_extend` adds two per
byte (with no alignment padding — the counting flavor carries no
`is_at_byte_boundary` state), and `finalize` returns the count. -/
def NibbleSize := Nat

/-- One push operation of the serialization `NibbleFlavor` trait. -/
inductive SerOp where
  | nib (n : Nat)
  | byte (b : Nat)
  | ext (bs : List Nat)
deriving Repr, DecidableEq

/-- Dispatch one trait operation on the slice flavor. -/
def SerSlice.runOp (s : SerSlice) : SerOp → Outcome SerSlice
  | .nib n => s.try_push_nib n
  | .byte b => s.try_push_u8 b
  | .ext bs => s.try_extend bs

/-- Number of nibbles an operation writes when issued in state `s`:
one per `try_push_nib`, two per `try_push_u8`, and for `try_extend` the
realignment padding nibble (when `s` is misaligned) plus two per byte. -/
def SerSlice.opNibbles (s : SerSlice) : SerOp → Nat
  | .nib _ => 1
  | .byte _ => 2
  | .ext bs => (if s.is_at_byte_boundary then 0 else 1) + 2 * bs.length

/-- Run a sequence of operations on the slice flavor, also accumulating
the total number of nibbles written (counted as in `opNibbles`). -/
def SerSlice.run (s : SerSlice) : List SerOp → Outcome (SerSlice × Nat)
  | [] => .ok (s, 0)
  | op :: rest =>
    match s.runOp op with
    | .ok s1 =>
      match s1.run rest with
      | .ok (s2, n) => .ok (s2, s.opNibbles op + n)
      | .err e => .err e
      | .ub => .ub
    | .err e => .err e
    | .ub => .ub

/-- `true` when every `try_extend` in the sequence is issued while the
slice flavor sits at a byte boundary (so no padding nibble is emitted). -/
def SerSlice.extAligned (s : SerSlice) : List SerOp → Bool
  | [] => true
  | op :: rest =>
    (match op with
     | .ext _ => s.is_at_byte_boundary
     | _ => true) &&
    (match s.runOp op with
     | .ok s1 => s1.extAligned rest
     | _ => true)

/-- Dispatch one trait operation on the `NibbleSize` flavor: the counter
update performed by `try_push_nib` / `try_push_u8` / `try_extend`. -/
def NibbleSize.runOp (z : Nat) : SerOp → Nat
  | .nib _ => z + 1
  | .byte _ => z + 2
  | .ext bs => z + bs.length * 2

/-- Run a sequence of operations on the `NibbleSize` flavor (every
operation succeeds). -/
def NibbleSize.run (z : Nat) : List SerOp → Nat
  | [] => z
  | op :: rest => NibbleSize.run (NibbleSize.runOp z op) rest

/-- 1 when the ser cursor sits mid-byte (a pending high nibble), else 0. -/
def SerSlice.pad (s : SerSlice) : Nat :=
  if s.is_at_byte_boundary then 0 else 1

/-- One take operation of the deserialization `NibbleFlavor` trait. -/
inductive DeOp where
  | nib
  | byte
  | n (ct : Nat)
deriving Repr, DecidableEq

/-- Dispatch one trait operation on the de slice flavor, keeping the
successor state on success. -/
def DeSlice.runOp (s : DeSlice) : DeOp → Outcome DeSlice
  | .nib =>
    match s.try_take_nib with
    | none => .ub
    | some (_, s1) => .ok s1
  | .byte =>
    match s.try_take_u8 with
    | none => .ub
    | some (.error e, _) => .err e
    | some (.ok _, s1) => .ok s1
  | .n ct =>
    match s.try_take_n ct with
    | none => .ub
    | some (.error e, _) => .err e
    | some (.ok _, s1) => .ok s1

/-- Number of nibbles an operation consumes when issued in state `s`:
one per `try_take_nib`, two per `try_take_u8`, and for `try_take_n` the
realignment padding nibble (when `s` is misaligned) plus two per byte. -/
def DeSlice.opNibbles (s : DeSlice) : DeOp → Nat
  | .nib => 1
  | .byte => 2
  | .n ct => (if s.is_at_byte_boundary then 0 else 1) + 2 * ct

/-- Run a sequence of operations on the de slice flavor, accumulating the
total number of nibbles consumed. -/
def DeSlice.run (s : DeSlice) : List DeOp → Outcome (DeSlice × Nat)
  | [] => .ok (s, 0)
  | op :: rest =>
    match s.runOp op with
    | .ok s1 =>
      match s1.run rest with
      | .ok (s2, n) => .ok (s2, s.opNibbles op + n)
      | .err e => .err e
      | .ub => .ub
    | .err e => .err e
    | .ub => .ub

/-- 1 when the de cursor sits mid-byte, else 0. -/
def DeSlice.pad (s : DeSlice) : Nat :=
  if s.is_at_byte_boundary then 0 else 1

theorem SerSlice.writeBytes_length (bs : List Nat) :
    ∀ (buf : List Nat) (i : Nat),
      (SerSlice.writeBytes buf i bs).length = buf.length := by
  induction bs with
  | nil => intro buf i; rfl
  | cons b rest ih =>
    intro buf i
    simp [SerSlice.writeBytes, ih, List.length_set]

theorem SerSlice.try_push_nib_ok (s s1 : SerSlice) (n : Nat)
    (h : s.try_push_nib n = .ok s1) :
    2 * s1.cursor + s1.pad = 2 * s.cursor + s.pad + 1 ∧
    s1.buf.length = s.buf.length ∧ s1.cursor ≤ s1.buf.length ∧
    s1.is_at_byte_boundary = !s.is_at_byte_boundary := by
  unfold try_push_nib at h
  by_cases hne : s.cursor = s.buf.length
  · rw [if_pos hne] at h; cases h
  rw [if_neg hne] at h
  cases hget : s.buf.get? s.cursor with
  | none => rw [hget] at h; cases h
  | some b =>
    rw [hget] at h
    dsimp only at h
    have hlt : s.cursor < s.buf.length := by
      rcases Nat.lt_or_ge s.cursor s.buf.length with h' | h'
      · exact h'
      · rw [List.get?_eq_none.mpr h'] at hget; cases hget
    by_cases hb : s.is_at_byte_boundary
    · rw [if_pos hb] at h
      injection h with h2
      subst h2
      refine ⟨?_, ?_, ?_, ?_⟩
      · simp [pad, hb]
      · simp [List.length_set]
      · simpa [List.length_set] using Nat.le_of_lt hlt
      · simp [hb]
    · rw [if_neg hb] at h
      by_cases h2 : s.cursor + 1 < s.buf.length
      · rw [if_pos h2] at h
        injection h with h3
        subst h3
        refine ⟨?_, ?_, ?_, ?_⟩
        · simp only [Bool.not_eq_true] at hb
          simp [pad, hb]
          omega
        · simp [List.length_set]
        · simpa [List.length_set] using Nat.le_of_lt h2
        · simp only [Bool.not_eq_true] at hb
          simp [hb]
      · rw [if_neg h2] at h; cases h

theorem SerSlice.try_push_u8_ok (s s1 : SerSlice) (byte : Nat)
    (h : s.try_push_u8 byte = .ok s1) :
    2 * s1.cursor + s1.pad = 2 * s.cursor + s.pad + 2 ∧
    s1.buf.length = s.buf.length ∧ s1.cursor ≤ s1.buf.length ∧
    s1.is_at_byte_boundary = s.is_at_byte_boundary := by
  unfold try_push_u8 at h
  by_cases hne : s.cursor = s.buf.length
  · rw [if_pos hne] at h; cases h
  rw [if_neg hne] at h
  cases hget : s.buf.get? s.cursor with
  | none => rw [hget] at h; cases h
  | some b =>
    rw [hget] at h
    dsimp only at h
    have hlt : s.cursor < s.buf.length := by
      rcases Nat.lt_or_ge s.cursor s.buf.length with h' | h'
      · exact h'
      · rw [List.get?_eq_none.mpr h'] at hget; cases hget
    by_cases hb : s.is_at_byte_boundary
    · rw [if_pos hb] at h
      injection h with h2
      subst h2
      refine ⟨by simp [pad, hb]; omega, by simp [List.length_set], ?_, rfl⟩
      simpa [List.length_set] using hlt
    · rw [if_neg hb] at h
      by_cases h2 : s.cursor + 1 = s.buf.length
      · rw [if_pos h2] at h; cases h
      · rw [if_neg h2] at h
        injection h with h3
        subst h3
        refine ⟨by simp [pad, hb]; omega, by simp [List.length_set], ?_, rfl⟩
        simp only [List.length_set]
        omega

theorem SerSlice.align_ok (s s1 : SerSlice) (h : s.align = .ok s1) :
    s1.is_at_byte_boundary = true ∧
    s1.cursor = s.cursor + s.pad ∧
    s1.buf.length = s.buf.length ∧
    (s.cursor ≤ s.buf.length → s1.cursor ≤ s1.buf.length) := by
  unfold align at h
  by_cases hb : s.is_at_byte_boundary
  · rw [if_pos hb] at h
    injection h with h2
    subst h2
    exact ⟨hb, by simp [pad, hb], rfl, fun hc => hc⟩
  · rw [if_neg hb] at h
    obtain ⟨hcnt, hlen, hle, hbd⟩ := SerSlice.try_push_nib_ok s s1 0 h
    simp only [Bool.not_eq_true] at hb
    rw [hb] at hbd
    simp only [Bool.not_false] at hbd
    refine ⟨hbd, ?_, hlen, fun _ => hle⟩
    simp [pad, hb, hbd] at hcnt ⊢
    omega

theorem SerSlice.try_extend_ok (s s1 : SerSlice) (bs : List Nat)
    (hc : s.cursor ≤ s.buf.length) (h : s.try_extend bs = .ok s1) :
    2 * s1.cursor + s1.pad = 2 * s.cursor + s.pad + (s.pad + 2 * bs.length) ∧
    s1.buf.length = s.buf.length ∧ s1.cursor ≤ s1.buf.length := by
  unfold try_extend at h
  cases ha : s.align with
  | err e => rw [ha] at h; cases h
  | ub => rw [ha] at h; cases h
  | ok sm =>
    rw [ha] at h
    dsimp only at h
    obtain ⟨hbd, hcur, hlen, hle⟩ := SerSlice.align_ok s sm ha
    by_cases hroom : sm.nibbles_left < bs.length * 2
    · rw [if_pos hroom] at h; cases h
    · rw [if_neg hroom] at h
      injection h with h2
      subst h2
      have hml : sm.cursor ≤ sm.buf.length := hle hc
      have hroom2 : sm.cursor + bs.length ≤ sm.buf.length := by
        simp [nibbles_left, hbd] at hroom
        omega
      refine ⟨?_, ?_, ?_⟩
      · cases hsb : s.is_at_byte_boundary <;>
          simp [pad, hbd, hcur, hsb] <;> omega
      · simp [SerSlice.writeBytes_length, hlen]
      · simpa [SerSlice.writeBytes_length] using hroom2

theorem SerSlice.runOp_ok (s s1 : SerSlice) (op : SerOp)
    (hc : s.cursor ≤ s.buf.length) (h : s.runOp op = .ok s1) :
    2 * s1.cursor + s1.pad = 2 * s.cursor + s.pad + s.opNibbles op ∧
    s1.buf.length = s.buf.length ∧ s1.cursor ≤ s1.buf.length := by
  cases op with
  | nib n =>
    obtain ⟨h1, h2, h3, _⟩ := try_push_nib_ok s s1 n h
    exact ⟨h1, h2, h3⟩
  | byte b =>
    obtain ⟨h1, h2, h3, _⟩ := try_push_u8_ok s s1 b h
    exact ⟨h1, h2, h3⟩
  | ext bs =>
    exact try_extend_ok s s1 bs hc h

theorem SerSlice.run_ok (ops : List SerOp) :
    ∀ (s s1 : SerSlice) (n : Nat), s.cursor ≤ s.buf.length →
      s.run ops = .ok (s1, n) →
      2 * s1.cursor + s1.pad = 2 * s.cursor + s.pad + n ∧
      s1.buf.length = s.buf.length ∧ s1.cursor ≤ s1.buf.length := by
  induction ops with
  | nil =>
    intro s s1 n hc h
    unfold run at h
    injection h with h2
    injection h2 with hA hB
    subst hA
    subst hB
    exact ⟨by omega, rfl, hc⟩
  | cons op rest ih =>
    intro s s1 n hc h
    unfold run at h
    cases hop : s.runOp op with
    | err e => rw [hop] at h; cases h
    | ub => rw [hop] at h; cases h
    | ok sm =>
      rw [hop] at h
      dsimp only at h
      cases hrest : sm.run rest with
      | err e => rw [hrest] at h; cases h
      | ub => rw [hrest] at h; cases h
      | ok p =>
        obtain ⟨s2, m⟩ := p
        rw [hrest] at h
        dsimp only at h
        injection h with h2
        injection h2 with hA hB
        subst hA
        subst hB
        obtain ⟨a1, a2, a3⟩ := runOp_ok s sm op hc hop
        obtain ⟨b1, b2, b3⟩ := ih sm s2 m a3 hrest
        exact ⟨by omega, by omega, b3⟩

theorem DeSlice.try_take_nib_some (s s1 : DeSlice) (v : Nat)
    (h : s.try_take_nib = some (v, s1)) :
    2 * s1.cursor + s1.pad = 2 * s.cursor + s.pad + 1 ∧
    s1.buf = s.buf ∧ s1.cursor ≤ s1.buf.length ∧
    s1.is_at_byte_boundary = !s.is_at_byte_boundary := by
  unfold try_take_nib at h
  cases hget : s.buf.get? s.cursor with
  | none => rw [hget] at h; cases h
  | some b =>
    rw [hget] at h
    dsimp only at h
    have hlt : s.cursor < s.buf.length := by
      rcases Nat.lt_or_ge s.cursor s.buf.length with h' | h'
      · exact h'
      · rw [List.get?_eq_none.mpr h'] at hget; cases hget
    by_cases hb : s.is_at_byte_boundary
    · rw [if_pos hb] at h
      injection h with h2
      injection h2 with hA hB
      subst hB
      refine ⟨by simp [pad, hb], rfl, Nat.le_of_lt hlt, by simp [hb]⟩
    · rw [if_neg hb] at h
      injection h with h2
      injection h2 with hA hB
      subst hB
      simp only [Bool.not_eq_true] at hb
      refine ⟨by simp [pad, hb]; omega, rfl, hlt, by simp [hb]⟩

theorem DeSlice.align_some (s s1 : DeSlice) (h : s.align = some s1) :
    s1.is_at_byte_boundary = true ∧
    s1.cursor = s.cursor + s.pad ∧
    s1.buf = s.buf ∧ (s.is_at_byte_boundary = false → s1.cursor ≤ s1.buf.length) := by
  unfold align at h
  by_cases hb : s.is_at_byte_boundary
  · rw [if_pos hb] at h
    injection h with h2
    subst h2
    exact ⟨hb, by simp [pad, hb], rfl, by intro hf; rw [hf] at hb; cases hb⟩
  · rw [if_neg hb] at h
    cases htn : s.try_take_nib with
    | none => rw [htn] at h; cases h
    | some p =>
      obtain ⟨v, sm⟩ := p
      rw [htn] at h
      dsimp only at h
      injection h with h2
      subst h2
      obtain ⟨hcnt, hbuf, hle, hbd⟩ := DeSlice.try_take_nib_some s sm v htn
      simp only [Bool.not_eq_true] at hb
      rw [hb] at hbd
      simp only [Bool.not_false] at hbd
      refine ⟨hbd, ?_, hbuf, fun _ => hle⟩
      simp [pad, hb, hbd] at hcnt ⊢
      omega

theorem DeSlice.try_take_u8_ok (s s1 : DeSlice) (v : Nat)
    (h : s.try_take_u8 = some (.ok v, s1)) :
    2 * s1.cursor + s1.pad = 2 * s.cursor + s.pad + 2 ∧
    s1.buf = s.buf ∧ s1.cursor ≤ s1.buf.length ∧
    s1.is_at_byte_boundary = s.is_at_byte_boundary := by
  unfold try_take_u8 at h
  by_cases hne : s.cursor = s.buf.length
  · rw [if_pos hne] at h
    injection h with h2
    injection h2 with hA hB
    cases hA
  rw [if_neg hne] at h
  cases hget : s.buf.get? s.cursor with
  | none => rw [hget] at h; cases h
  | some b =>
    rw [hget] at h
    dsimp only at h
    have hlt : s.cursor < s.buf.length := by
      rcases Nat.lt_or_ge s.cursor s.buf.length with h' | h'
      · exact h'
      · rw [List.get?_eq_none.mpr h'] at hget; cases hget
    by_cases hb : s.is_at_byte_boundary
    · rw [if_pos hb] at h
      injection h with h2
      injection h2 with hA hB
      subst hB
      exact ⟨by cases hsb : s.is_at_byte_boundary <;> simp [pad, hsb] <;> omega,
             rfl, hlt, rfl⟩
    · rw [if_neg hb] at h
      cases hget2 : s.buf.get? (s.cursor + 1) with
      | none => rw [hget2] at h; cases h
      | some b2 =>
        rw [hget2] at h
        dsimp only at h
        injection h with h2
        injection h2 with hA hB
        subst hB
        have hlt2 : s.cursor + 1 < s.buf.length := by
          rcases Nat.lt_or_ge (s.cursor + 1) s.buf.length with h' | h'
          · exact h'
          · rw [List.get?_eq_none.mpr h'] at hget2; cases hget2
        exact ⟨by cases hsb : s.is_at_byte_boundary <;> simp [pad, hsb] <;> omega,
               rfl, Nat.le_of_lt hlt2, rfl⟩

theorem DeSlice.try_take_n_ok (s s1 : DeSlice) (ct : Nat) (v : List Nat)
    (hc : s.cursor ≤ s.buf.length) (h : s.try_take_n ct = some (.ok v, s1)) :
    2 * s1.cursor + s1.pad = 2 * s.cursor + s.pad + (s.pad + 2 * ct) ∧
    s1.buf = s.buf ∧ s1.cursor ≤ s1.buf.length := by
  unfold try_take_n at h
  cases ha : s.align with
  | none => rw [ha] at h; cases h
  | some sm =>
    rw [ha] at h
    dsimp only at h
    obtain ⟨hbd, hcur, hbuf, hmis⟩ := DeSlice.align_some s sm ha
    have hml : sm.cursor ≤ sm.buf.length := by
      by_cases hb : s.is_at_byte_boundary
      · rw [hbuf]
        simp [pad, hb] at hcur
        omega
      · simp only [Bool.not_eq_true] at hb
        exact hmis hb
    by_cases hroom : sm.nibbles_left / 2 < ct
    · rw [if_pos hroom] at h
      injection h with h2
      injection h2 with hA hB
      cases hA
    · rw [if_neg hroom] at h
      injection h with h2
      injection h2 with hA hB
      subst hB
      have hroom2 : sm.cursor + ct ≤ sm.buf.length := by
        simp [nibbles_left, hbd] at hroom
        omega
      refine ⟨?_, hbuf, hroom2⟩
      cases hsb : s.is_at_byte_boundary <;>
        simp [pad, hbd, hcur, hsb] <;> omega

theorem DeSlice.takeOp_counts (s s1 : DeSlice) (op : DeOp)
    (hc : s.cursor ≤ s.buf.length) (h : s.runOp op = .ok s1) :
    2 * s1.cursor + s1.pad = 2 * s.cursor + s.pad + s.opNibbles op ∧
    s1.buf = s.buf ∧ s1.cursor ≤ s1.buf.length := by
  cases op with
  | nib =>
    unfold runOp at h
    dsimp only at h
    cases htn : s.try_take_nib with
    | none => rw [htn] at h; cases h
    | some p =>
      obtain ⟨v, sm⟩ := p
      rw [htn] at h
      dsimp only at h
      injection h with h2
      subst h2
      obtain ⟨h1, h2, h3, _⟩ := try_take_nib_some s sm v htn
      exact ⟨h1, h2, h3⟩
  | byte =>
    unfold runOp at h
    dsimp only at h
    cases htn : s.try_take_u8 with
    | none => rw [htn] at h; cases h
    | some p =>
      obtain ⟨r, sm⟩ := p
      rw [htn] at h
      cases r with
      | error e => dsimp only at h; cases h
      | ok v =>
        dsimp only at h
        injection h with h2
        subst h2
        obtain ⟨h1, h2, h3, _⟩ := try_take_u8_ok s sm v htn
        exact ⟨h1, h2, h3⟩
  | n ct =>
    unfold runOp at h
    dsimp only at h
    cases htn : s.try_take_n ct with
    | none => rw [htn] at h; cases h
    | some p =>
      obtain ⟨r, sm⟩ := p
      rw [htn] at h
      cases r with
      | error e => dsimp only at h; cases h
      | ok v =>
        dsimp only at h
        injection h with h2
        subst h2
        exact try_take_n_ok s sm ct v hc htn

theorem DeSlice.takeRun_counts (ops : List DeOp) :
    ∀ (s s1 : DeSlice) (n : Nat), s.cursor ≤ s.buf.length →
      s.run ops = .ok (s1, n) →
      2 * s1.cursor + s1.pad = 2 * s.cursor + s.pad + n ∧
      s1.buf = s.buf ∧ s1.cursor ≤ s1.buf.length := by
  induction ops with
  | nil =>
    intro s s1 n hc h
    unfold run at h
    injection h with h2
    injection h2 with hA hB
    subst hA
    subst hB
    exact ⟨by omega, rfl, hc⟩
  | cons op rest ih =>
    intro s s1 n hc h
    unfold run at h
    cases hop : s.runOp op with
    | err e => rw [hop] at h; cases h
    | ub => rw [hop] at h; cases h
    | ok sm =>
      rw [hop] at h
      dsimp only at h
      cases hrest : sm.run rest with
      | err e => rw [hrest] at h; cases h
      | ub => rw [hrest] at h; cases h
      | ok p =>
        obtain ⟨s2, m⟩ := p
        rw [hrest] at h
        dsimp only at h
        injection h with h2
        injection h2 with hA hB
        subst hA
        subst hB
        obtain ⟨a1, a2, a3⟩ := takeOp_counts s sm op hc hop
        obtain ⟨b1, b2, b3⟩ := ih sm s2 m a3 hrest
        refine ⟨by omega, by rw [b2, a2], b3⟩

theorem NibbleSize.run_eq (ops : List SerOp) :
    ∀ (s s1 : SerSlice) (n z : Nat),
      s.extAligned ops = true → s.run ops = .ok (s1, n) →
      NibbleSize.run z ops = z + n := by
  induction ops with
  | nil =>
    intro s s1 n z hal h
    unfold SerSlice.run at h
    injection h with h2
    injection h2 with hA hB
    subst hB
    rfl
  | cons op rest ih =>
    intro s s1 n z hal h
    unfold SerSlice.run at h
    unfold SerSlice.extAligned at hal
    cases hop : s.runOp op with
    | err e => rw [hop] at h; cases h
    | ub => rw [hop] at h; cases h
    | ok sm =>
      rw [hop] at h
      rw [hop] at hal
      dsimp only at h
      dsimp only at hal
      cases hrest : sm.run rest with
      | err e => rw [hrest] at h; cases h
      | ub => rw [hrest] at h; cases h
      | ok p =>
        obtain ⟨s2, m⟩ := p
        rw [hrest] at h
        dsimp only at h
        injection h with h2
        injection h2 with hA hB
        subst hA
        subst hB
        rw [Bool.and_eq_true] at hal
        obtain ⟨hg, hal2⟩ := hal
        have hih := ih sm s2 m (NibbleSize.runOp z op) hal2 hrest
        unfold NibbleSize.run
        rw [hih]
        cases op with
        | nib k => simp [NibbleSize.runOp, SerSlice.opNibbles]; omega
        | byte k => simp [NibbleSize.runOp, SerSlice.opNibbles]; omega
        | ext bs =>
          have hgb : s.is_at_byte_boundary = true := by simpa using hg
          simp [NibbleSize.runOp, SerSlice.opNibbles, hgb]
          omega

theorem Vlu32N.serLoop_length (fuel : Nat) :
    ∀ (val : Nat) (m : Bool), (Vlu32N.serLoop fuel val m).length ≤ fuel := by
  induction fuel with
  | zero => intro val m; simp [Vlu32N.serLoop]
  | succ f ih =>
    intro val m
    unfold Vlu32N.serLoop
    by_cases h1 : ((val &&& (7 <<< 29) != 0) || m) = true
    · rw [if_pos h1]
      simp only [List.length_cons]
      exact Nat.succ_le_succ (ih _ _)
    · rw [if_neg h1]
      by_cases h2 : (f == 0) = true
      · rw [if_pos h2]
        simp only [List.length_cons]
        exact Nat.succ_le_succ (ih _ _)
      · rw [if_neg h2]
        exact Nat.le_succ_of_le (ih _ _)

theorem Vlu32N.deLoop_take (fuel : Nat) :
    ∀ (num : Nat) (l : List Nat),
      Vlu32N.deLoop fuel num l = Vlu32N.deLoop fuel num (l.take fuel) := by
  induction fuel with
  | zero => intro num l; rfl
  | succ f ih =>
    intro num l
    cases l with
    | nil => rw [List.take_nil]
    | cons a rest =>
      rw [List.take_succ_cons]
      unfold Vlu32N.deLoop
      dsimp only
      by_cases h1 : (f == 0 && (a &&& 0b1000 != 0)) = true
      · simp only [if_pos h1]
      · simp only [if_neg h1]
        by_cases h2 : (a &&& 0b1000 == 0) = true
        · simp only [if_pos h2]
        · simp only [if_neg h2]
          exact ih _ _

theorem Vlu32N.deLoop_stop (pre : List Nat) :
    ∀ (fuel num n : Nat) (post : List Nat),
      pre.length < fuel → (∀ x ∈ pre, x &&& 0b1000 ≠ 0) → n &&& 0b1000 = 0 →
      Vlu32N.deLoop fuel num (pre ++ n :: post) =
        Vlu32N.deLoop fuel num (pre ++ [n]) := by
  induction pre with
  | nil =>
    intro fuel num n post hlt hall hn
    cases fuel with
    | zero => exact absurd hlt (by omega)
    | succ f =>
      simp only [List.nil_append]
      unfold Vlu32N.deLoop
      dsimp only
      have hc : (n &&& 0b1000 != 0) = false := by simp [hn]
      have hc2 : (n &&& 0b1000 == 0) = true := by simp [hn]
      rw [hc, hc2]
      simp
  | cons a pre ih =>
    intro fuel num n post hlt hall hn
    cases fuel with
    | zero => exact absurd hlt (by omega)
    | succ f =>
      have ha : a &&& 0b1000 ≠ 0 := hall a (by simp)
      have hf : f ≠ 0 := by
        simp only [List.length_cons] at hlt
        omega
      simp only [List.cons_append]
      unfold Vlu32N.deLoop
      dsimp only
      have h1 : (f == 0) = false := by simp [hf]
      have h2 : (a &&& 0b1000 == 0) = false := by simp [ha]
      rw [h1, h2]
      simp only [Bool.false_and, Bool.false_eq_true, if_false]
      exact ih f _ n post
        (by simp only [List.length_cons] at hlt; omega)
        (fun x hx => hall x (by simp [hx]))
        hn

theorem Vlu32N.deLoop_malformed (pre : List Nat) :
    ∀ (num m : Nat) (post : List Nat),
      (∀ x ∈ pre, x &&& 0b1000 ≠ 0) → m &&& 0b1000 ≠ 0 →
      Vlu32N.deLoop (pre.length + 1) num (pre ++ m :: post) =
        .error .DeserializeBadVlu32N := by
  induction pre with
  | nil =>
    intro num m post hall hm
    simp only [List.nil_append, List.length_nil]
    unfold Vlu32N.deLoop
    dsimp only
    have hc : (m &&& 0b1000 != 0) = true := by simp [hm]
    rw [hc]
    simp
  | cons a pre ih =>
    intro num m post hall hm
    have ha : a &&& 0b1000 ≠ 0 := hall a (by simp)
    simp only [List.cons_append, List.length_cons]
    unfold Vlu32N.deLoop
    dsimp only
    have h1 : ((pre.length + 1) == 0) = false := by simp
    have h2 : (a &&& 0b1000 == 0) = false := by simp [ha]
    rw [h1, h2]
    simp only [Bool.false_and, Bool.false_eq_true, if_false]
    exact ih _ m post (fun x hx => hall x (by simp [hx])) hm

/-- Claim C1 (code bug): the round-trip fails through the slice sink.
Encoding the u32 value 15 (Vlu32N nibbles `[0x9, 0x7]`) into a zeroed
2-byte slice leaves `0x90` at index 0 and `0x97` at index 1 with the
cursor at 1, because the misaligned `try_push_nib` advances the cursor
before writing the combined byte; `finalize` therefore yields `[0x90]`,
which decodes to 8, not 15. -/
theorem c1_roundtrip_failing_eval :
    Vlu32N.serSlice 15 (SerSlice.new [0, 0]) =
      .ok { buf := [0x90, 0x97], cursor := 1, is_at_byte_boundary := true } ∧
    SerSlice.finalize { buf := [0x90, 0x97], cursor := 1, is_at_byte_boundary := true } =
      [0x90] ∧
    Vlu32N.deSlice (DeSlice.new [0x90]) =
      some (.ok 8, { buf := [0x90], cursor := 1, is_at_byte_boundary := true }) ∧
    (8 : Nat) ≠ 15 :=
  ⟨rfl, rfl, rfl, by decide⟩

/-- Claim C2 (code bug): pushing nibble `0xA` then nibble `0xB` into a
zeroed 2-byte slice.  The claim requires the second push to store `0xB`
into the low bits of byte 0 (making it `0xAB`) and to leave byte 1
untouched; the code instead leaves byte 0 as `0xA0` and writes the
combined byte `0xAB` at byte 1 (the byte one past the old cursor),
because the cursor is advanced before the write. -/
theorem c2_push_nib_misaligned_eval :
    SerSlice.pushNibs (SerSlice.new [0, 0]) [0xA, 0xB] =
      .ok { buf := [0xA0, 0xAB], cursor := 1, is_at_byte_boundary := true } ∧
    (0xA0 : Nat) &&& 0x0f ≠ 0xB ∧
    (0xAB : Nat) ≠ 0 :=
  ⟨rfl, by decide, by decide⟩

/-- Claim C3 (code bug): `try_take_nib` on an exhausted source performs an
out-of-bounds read (`none`, undefined behavior in the Rust source, which
dereferences the cursor with no bounds check) instead of returning the
`DeserializeUnexpectedEnd` error the claim requires — both on a source
over an empty slice and on one whose two nibbles were already taken. -/
theorem c3_take_nib_exhausted_eval :
    DeSlice.try_take_nib (DeSlice.new []) = none ∧
    DeSlice.try_take_nib { buf := [0xAB], cursor := 1, is_at_byte_boundary := true } =
      none :=
  ⟨rfl, rfl⟩

/-- Claim C7 (code bug): misaligned `try_take_u8`.  In bounds it does
combine the pending low nibble of the current byte with the high nibble of
the next byte (`0xAB`,`0xCD` misaligned gives `0xBC`), advancing the
cursor one byte with parity unchanged; but when the current byte is the
final byte the code dereferences one past the end (`none`, undefined
behavior) instead of failing with `DeserializeUnexpectedEnd` as the claim
requires — only the entry `cursor == end` check exists. -/
theorem c7_take_u8_misaligned_eval :
    DeSlice.try_take_nib (DeSlice.new [0xAB]) =
      some (0xA, { buf := [0xAB], cursor := 0, is_at_byte_boundary := false }) ∧
    DeSlice.try_take_u8 { buf := [0xAB], cursor := 0, is_at_byte_boundary := false } =
      none ∧
    DeSlice.try_take_u8 { buf := [0xAB, 0xCD], cursor := 0, is_at_byte_boundary := false } =
      some (.ok 0xBC, { buf := [0xAB, 0xCD], cursor := 1, is_at_byte_boundary := false }) :=
  ⟨rfl, rfl, rfl⟩

/-- Claim C4 counterexample: `try_take_n 1` on a misaligned source over
one byte fails with `DeserializeUnexpectedEnd` but advances the cursor
from 0 to 1 and flips `at_boundary` from false to true — the failing
call does not leave the state as it was. -/
theorem c4_take_n_mutation_cex :
    DeSlice.try_take_n { buf := [0xAB], cursor := 0, is_at_byte_boundary := false } 1 =
      some (.error .DeserializeUnexpectedEnd,
            { buf := [0xAB], cursor := 1, is_at_byte_boundary := true }) ∧
    ({ buf := [0xAB], cursor := 1, is_at_byte_boundary := true } : DeSlice) ≠
      { buf := [0xAB], cursor := 0, is_at_byte_boundary := false } :=
  ⟨rfl, by decide⟩

/-- Claim C4 (amended): when `try_take_n` fails, a byte-aligned source is
left exactly as it was; a misaligned source first consumes the one
realignment padding nibble — the cursor advances by exactly one byte and
`at_boundary` becomes true — and the failing availability check performs
no further mutation. -/
theorem c4_take_n_failure_state (s s1 : DeSlice) (ct : Nat) (e : Error)
    (h : s.try_take_n ct = some (.error e, s1)) :
    (s.is_at_byte_boundary = true → s1 = s) ∧
    (s.is_at_byte_boundary = false →
      s1.cursor = s.cursor + 1 ∧ s1.is_at_byte_boundary = true ∧ s1.buf = s.buf) := by
  unfold DeSlice.try_take_n at h
  cases ha : s.align with
  | none => rw [ha] at h; cases h
  | some sm =>
    rw [ha] at h
    dsimp only at h
    by_cases hroom : sm.nibbles_left / 2 < ct
    · rw [if_pos hroom] at h
      injection h with h2
      injection h2 with hA hB
      subst hB
      constructor
      · intro hb
        unfold DeSlice.align at ha
        rw [if_pos hb] at ha
        injection ha with h3
        exact h3.symm
      · intro hb
        obtain ⟨hbd, hcur, hbuf, _⟩ := DeSlice.align_some s sm ha
        refine ⟨?_, hbd, hbuf⟩
        simpa [DeSlice.pad, hb] using hcur
    · rw [if_neg hroom] at h
      injection h with h2
      injection h2 with hA hB
      cases hA

/-- Witness for C4's amended theorem at the concrete misaligned source
over `[0xAB]` with count 1. -/
theorem c4_take_n_failure_state_witness :
    (((⟨[0xAB], 0, false⟩ : DeSlice).is_at_byte_boundary = true →
        (⟨[0xAB], 1, true⟩ : DeSlice) = ⟨[0xAB], 0, false⟩) ∧
     ((⟨[0xAB], 0, false⟩ : DeSlice).is_at_byte_boundary = false →
        (⟨[0xAB], 1, true⟩ : DeSlice).cursor =
          (⟨[0xAB], 0, false⟩ : DeSlice).cursor + 1 ∧
        (⟨[0xAB], 1, true⟩ : DeSlice).is_at_byte_boundary = true ∧
        (⟨[0xAB], 1, true⟩ : DeSlice).buf = (⟨[0xAB], 0, false⟩ : DeSlice).buf)) :=
  c4_take_n_failure_state ⟨[0xAB], 0, false⟩ ⟨[0xAB], 1, true⟩ 1
    .DeserializeUnexpectedEnd rfl

/-- Claim C5 (confirmed): the Vlu32N literal encoding vectors.  Value 0
encodes as the single nibble `0x0`, 7 as `0x7`, 8 as `[0x9, 0x0]` with the
continuation bit only on the first nibble, and `0xFFFFFFFF` as exactly 11
nibbles with the continuation bit on all but the last, the last being
`0x7`; and no u32 value ever produces more than 11 nibbles. -/
theorem c5_vlu32n_ser_vectors (v : Nat) (hv : v < 4294967296) :
    Vlu32N.serNibs 0 = [0x0] ∧
    Vlu32N.serNibs 7 = [0x7] ∧
    Vlu32N.serNibs 8 = [0x9, 0x0] ∧
    Vlu32N.serNibs 0xFFFFFFFF =
      [0xB, 0xF, 0xF, 0xF, 0xF, 0xF, 0xF, 0xF, 0xF, 0xF, 0x7] ∧
    ((Vlu32N.serNibs 0xFFFFFFFF).take 10).all (fun x => x &&& 0b1000 != 0) = true ∧
    (Vlu32N.serNibs 0xFFFFFFFF).getLast? = some 0x7 ∧
    (Vlu32N.serNibs v).length ≤ 11 := by
  have hb : v < 4294967296 := hv
  refine ⟨by decide, by decide, by decide, by decide, by decide, by decide, ?_⟩
  unfold Vlu32N.serNibs
  by_cases h1 : (v >>> 30 != 0) = true
  · rw [if_pos h1]
    simp only [List.length_cons]
    exact Nat.succ_le_succ (Vlu32N.serLoop_length 10 _ _)
  · rw [if_neg h1]
    exact Nat.le_trans (Vlu32N.serLoop_length 10 _ _) (by omega)

/-- Witness for C5 at the maximum u32 value. -/
theorem c5_vlu32n_ser_vectors_witness :
    Vlu32N.serNibs 0 = [0x0] ∧
    Vlu32N.serNibs 7 = [0x7] ∧
    Vlu32N.serNibs 8 = [0x9, 0x0] ∧
    Vlu32N.serNibs 0xFFFFFFFF =
      [0xB, 0xF, 0xF, 0xF, 0xF, 0xF, 0xF, 0xF, 0xF, 0xF, 0x7] ∧
    ((Vlu32N.serNibs 0xFFFFFFFF).take 10).all (fun x => x &&& 0b1000 != 0) = true ∧
    (Vlu32N.serNibs 0xFFFFFFFF).getLast? = some 0x7 ∧
    (Vlu32N.serNibs 0xFFFFFFFF).length ≤ 11 :=
  c5_vlu32n_ser_vectors 0xFFFFFFFF (by decide)

/-- Claim C6 (confirmed): `Vlu32N::de` reads at most 11 nibbles (the
result depends only on the first 11 of the stream), stops at the first
nibble whose continuation bit is clear (everything after it is ignored),
and when the first ten nibbles all carry the continuation bit and the 11th
does too it returns the dedicated `DeserializeBadVlu32N` error, which is
distinct from `DeserializeUnexpectedEnd`. -/
theorem c6_vlu32n_de_limits (pre post : List Nat) (n : Nat)
    (hlen : pre.length ≤ 10) (hcont : ∀ x ∈ pre, x &&& 0b1000 ≠ 0)
    (hstop : n &&& 0b1000 = 0) :
    (∀ l : List Nat, Vlu32N.deNibs l = Vlu32N.deNibs (l.take 11)) ∧
    Vlu32N.deNibs (pre ++ n :: post) = Vlu32N.deNibs (pre ++ [n]) ∧
    (∀ pre10 : List Nat, pre10.length = 10 →
      (∀ x ∈ pre10, x &&& 0b1000 ≠ 0) →
      ∀ (m : Nat), m &&& 0b1000 ≠ 0 →
      ∀ (post2 : List Nat),
        Vlu32N.deNibs (pre10 ++ m :: post2) = .error .DeserializeBadVlu32N) ∧
    Error.DeserializeBadVlu32N ≠ Error.DeserializeUnexpectedEnd := by
  refine ⟨?_, ?_, ?_, by decide⟩
  · intro l
    exact Vlu32N.deLoop_take 11 0 l
  · exact Vlu32N.deLoop_stop pre 11 0 n post (by omega) hcont hstop
  · intro pre10 hl hall m hm post2
    have hmal := Vlu32N.deLoop_malformed pre10 0 m post2 hall hm
    rw [hl] at hmal
    exact hmal

/-- Witness for C6: decoding `[0x9, 0x0, 0x3]` ignores the trailing
nibble, and eleven continuation nibbles yield the malformed-varint
error. -/
theorem c6_vlu32n_de_limits_witness :
    Vlu32N.deNibs [0x9, 0x0, 0x3] = Vlu32N.deNibs [0x9, 0x0] ∧
    Vlu32N.deNibs [0xF, 0xF, 0xF, 0xF, 0xF, 0xF, 0xF, 0xF, 0xF, 0xF, 0xF] =
      .error .DeserializeBadVlu32N :=
  ⟨(c6_vlu32n_de_limits [0x9] [0x3] 0 (by decide) (by decide) (by decide)).2.1,
   (c6_vlu32n_de_limits [0x9] [0x3] 0 (by decide) (by decide) (by decide)).2.2.1
     [0xF, 0xF, 0xF, 0xF, 0xF, 0xF, 0xF, 0xF, 0xF, 0xF] rfl (by decide)
     0xF (by decide) []⟩

/-- Claim C8 (confirmed): boundary parity invariant.  After any error-free
(and in-bounds) sequence of push operations on a freshly constructed slice
sink, and any such sequence of take operations on a freshly constructed
source, `is_at_byte_boundary` is true exactly when the total number of
nibbles written respectively consumed is even. -/
theorem c8_boundary_parity (sbuf dbuf : List Nat) (sops : List SerOp)
    (dops : List DeOp) (s1 : SerSlice) (d1 : DeSlice) (m n : Nat)
    (hs : (SerSlice.new sbuf).run sops = .ok (s1, m))
    (hd : (DeSlice.new dbuf).run dops = .ok (d1, n)) :
    (s1.is_at_byte_boundary = true ↔ m % 2 = 0) ∧
    (d1.is_at_byte_boundary = true ↔ n % 2 = 0) := by
  obtain ⟨a1, _, _⟩ :=
    SerSlice.run_ok sops (SerSlice.new sbuf) s1 m (by simp [SerSlice.new]) hs
  obtain ⟨b1, _, _⟩ :=
    DeSlice.takeRun_counts dops (DeSlice.new dbuf) d1 n (by simp [DeSlice.new]) hd
  constructor
  · simp [SerSlice.new, SerSlice.pad] at a1
    cases hb : s1.is_at_byte_boundary <;> simp [hb] at a1 ⊢ <;> omega
  · simp [DeSlice.new, DeSlice.pad] at b1
    cases hb : d1.is_at_byte_boundary <;> simp [hb] at b1 ⊢ <;> omega

/-- Witness for C8: two nibbles pushed (even, boundary true) and one
nibble taken (odd, boundary false). -/
theorem c8_boundary_parity_witness :
    ((⟨[0x10, 0x12], 1, true⟩ : SerSlice).is_at_byte_boundary = true ↔
      (2 : Nat) % 2 = 0) ∧
    ((⟨[0x12], 0, false⟩ : DeSlice).is_at_byte_boundary = true ↔
      (1 : Nat) % 2 = 0) :=
  c8_boundary_parity [0, 0] [0x12] [.nib 1, .nib 2] [.nib]
    ⟨[0x10, 0x12], 1, true⟩ ⟨[0x12], 0, false⟩ 2 1 rfl rfl

/-- Claim C9 counterexample: three pushed nibbles.  The size accumulator
reports 3 nibbles, the slice backend's finalized output has byte length 1
with a final half-nibble pending, and 3 is not `2 × 1 − 1` — the claim's
formula (twice the byte length, minus one when a half-nibble is pending)
fails on the code. -/
theorem c9_size_minus_one_cex :
    (SerSlice.new [0, 0]).run [.nib 1, .nib 2, .nib 3] =
      .ok (⟨[0x10, 0x32], 1, false⟩, 3) ∧
    NibbleSize.run 0 [SerOp.nib 1, SerOp.nib 2, SerOp.nib 3] = 3 ∧
    (SerSlice.finalize ⟨[0x10, 0x32], 1, false⟩).length = 1 ∧
    NibbleSize.run 0 [SerOp.nib 1, SerOp.nib 2, SerOp.nib 3] ≠ 2 * 1 - 1 :=
  ⟨rfl, rfl, rfl, by decide⟩

/-- Claim C9 (amended): for any error-free operation sequence in which
every `try_extend` is issued at a byte boundary, the nibble count
finalized by the size accumulator equals twice the byte length of the
slice backend's finalized output, **plus** one when a final half-nibble is
pending (the slice `finalize` excludes the pending half-written byte).
When an extend is issued while misaligned the two backends additionally
disagree by the padding nibble, which `NibbleSize::try_extend` does not
count. -/
theorem c9_size_slice_equiv (buf : List Nat) (ops : List SerOp)
    (s1 : SerSlice) (n : Nat)
    (hrun : (SerSlice.new buf).run ops = .ok (s1, n))
    (hal : (SerSlice.new buf).extAligned ops = true) :
    NibbleSize.run 0 ops =
      2 * (SerSlice.finalize s1).length +
        (if s1.is_at_byte_boundary then 0 else 1) := by
  obtain ⟨a1, a2, a3⟩ :=
    SerSlice.run_ok ops (SerSlice.new buf) s1 n (by simp [SerSlice.new]) hrun
  have hsz := NibbleSize.run_eq ops (SerSlice.new buf) s1 n 0 hal hrun
  have hfin : (SerSlice.finalize s1).length = s1.cursor := by
    simp [SerSlice.finalize, List.length_take]
    omega
  rw [hsz, hfin]
  simp [SerSlice.new, SerSlice.pad] at a1
  cases hb : s1.is_at_byte_boundary <;> simp [hb] at a1 ⊢ <;> omega

/-- Witness for C9's amended theorem: a pushed byte followed by an aligned
extend of one byte gives size count 4 and output length 2 with no pending
half-nibble. -/
theorem c9_size_slice_equiv_witness :
    NibbleSize.run 0 [SerOp.byte 0xAB, SerOp.ext [0xCD]] =
      2 * (SerSlice.finalize ⟨[0xAB, 0xCD, 0], 2, true⟩).length +
        (if (⟨[0xAB, 0xCD, 0], 2, true⟩ : SerSlice).is_at_byte_boundary
         then 0 else 1) :=
  c9_size_slice_equiv [0, 0, 0] [SerOp.byte 0xAB, SerOp.ext [0xCD]]
    ⟨[0xAB, 0xCD, 0], 2, true⟩ 4 rfl rfl

/-- Claim C10 (confirmed): after an error-free sequence writing an odd
total number of nibbles into a fresh slice sink, `at_boundary` is false,
the cursor sits at `n / 2`, and `finalize` returns exactly the first
`n / 2` bytes of the buffer — the pending half-written byte at index
`n / 2` is excluded, so the output length is the floor of the nibble count
halved. -/
theorem c10_finalize_excludes_pending (buf : List Nat) (ops : List SerOp)
    (s1 : SerSlice) (n : Nat)
    (hrun : (SerSlice.new buf).run ops = .ok (s1, n)) (hodd : n % 2 = 1) :
    s1.is_at_byte_boundary = false ∧ s1.cursor = n / 2 ∧
    SerSlice.finalize s1 = s1.buf.take (n / 2) ∧
    (SerSlice.finalize s1).length = n / 2 := by
  obtain ⟨a1, a2, a3⟩ :=
    SerSlice.run_ok ops (SerSlice.new buf) s1 n (by simp [SerSlice.new]) hrun
  simp [SerSlice.new, SerSlice.pad] at a1
  have hb : s1.is_at_byte_boundary = false := by
    cases hb2 : s1.is_at_byte_boundary
    · rfl
    · simp [hb2] at a1
      omega
  simp [hb] at a1
  have hcur : s1.cursor = n / 2 := by omega
  refine ⟨hb, hcur, by simp [SerSlice.finalize, hcur], ?_⟩
  simp [SerSlice.finalize, List.length_take, hcur]
  omega

/-- Witness for C10 at three pushed nibbles into a 2-byte buffer. -/
theorem c10_finalize_excludes_pending_witness :
    (⟨[0x10, 0x32], 1, false⟩ : SerSlice).is_at_byte_boundary = false ∧
    (⟨[0x10, 0x32], 1, false⟩ : SerSlice).cursor = 3 / 2 ∧
    SerSlice.finalize ⟨[0x10, 0x32], 1, false⟩ =
      (⟨[0x10, 0x32], 1, false⟩ : SerSlice).buf.take (3 / 2) ∧
    (SerSlice.finalize ⟨[0x10, 0x32], 1, false⟩).length = 3 / 2 :=
  c10_finalize_excludes_pending [0, 0] [.nib 1, .nib 2, .nib 3]
    ⟨[0x10, 0x32], 1, false⟩ 3 rfl rfl
